import Mathlib

/-!
Verification of the UMX (Unreal package) decoding helpers and the
path-string trailing-slash operations of this repository.

The repository ships `soundlib/UMXTools.h`, which declares the UMX
decoding interface (header probing, the variable-length compact integer
codec, name-table reading and name lookup); the implementation file is
not part of the sources here, so those operations are modelled from the
specification's description of the format and algorithms.  The
path-string operations (`HasTrailingSlash`, `EnsureTrailingSlash`,
`WithoutTrailingSlash`) are translated directly from
`common/mptPathString.h`.
-/

namespace UMX

/-- A byte cursor over a bounded byte source: the full byte list plus the
current read position.  Models the `FileReader &chunk` cursor used by the
UMX helpers. -/
structure Cursor where
  data : List Nat
  pos : Nat
deriving DecidableEq, Repr

/-- Read one byte at the cursor; fails (returns `none`) when the position
is at or past the end of the bounded source, succeeds with the byte and
the advanced cursor otherwise. -/
def readByte (c : Cursor) : Option (Nat × Cursor) :=
  match c.data[c.pos]? with
  | some b => some (b, ⟨c.data, c.pos + 1⟩)
  | none => none

/-- Apply the sign bit to an assembled magnitude: a set sign bit negates
the magnitude.  A zero magnitude with the sign bit set yields `0` (the
integers have no negative zero, matching the required normalization). -/
def mkSigned (s m : Nat) : Int :=
  if s = 1 then -(m : Int) else (m : Int)

/-- Modelled from the spec: `ReadUMXIndex` (the compact-index decoder) is
declared in `soundlib/UMXTools.h` but its implementation file is absent
from the sources.  Per the spec's codec contract: the first byte's top
bit signals continuation, its second-highest bit carries the sign, its
low 6 bits are the low-order magnitude bits; each continuation byte adds
7 magnitude bits least-significant-first, its top bit again signaling
continuation; at most 5 bytes are consumed and the 5th byte contributes
all 8 of its bits with no continuation bit examined.  A read past the
available bytes makes the whole decode fail (`none`). -/
def ReadUMXIndex (c : Cursor) : Option (Int × Cursor) :=
  match readByte c with
  | none => none
  | some (b0, c1) =>
    let s := b0 / 64 % 2
    let m0 := b0 % 64
    if b0 / 128 % 2 = 0 then some (mkSigned s m0, c1)
    else match readByte c1 with
    | none => none
    | some (b1, c2) =>
      let m1 := m0 + b1 % 128 * 2 ^ 6
      if b1 / 128 % 2 = 0 then some (mkSigned s m1, c2)
      else match readByte c2 with
      | none => none
      | some (b2, c3) =>
        let m2 := m1 + b2 % 128 * 2 ^ 13
        if b2 / 128 % 2 = 0 then some (mkSigned s m2, c3)
        else match readByte c3 with
        | none => none
        | some (b3, c4) =>
          let m3 := m2 + b3 % 128 * 2 ^ 20
          if b3 / 128 % 2 = 0 then some (mkSigned s m3, c4)
          else match readByte c4 with
          | none => none
          | some (b4, c5) => some (mkSigned s (m3 + b4 * 2 ^ 27), c5)

/-- The magnitude contribution of the continuation bytes (bytes 2..5 of
an encoding), as a direct formula over the byte list: continuation byte
`i` (0-based, so overall byte `i + 2`) contributes its low 7 bits at
shift `6 + 7 * i`, except that a 4th continuation byte (the 5th byte
overall) contributes all 8 bits. -/
def contMagnitude : List Nat → Nat → Nat
  | [], _ => 0
  | b :: rest, i => (if i = 3 then b else b % 128) * 2 ^ (6 + 7 * i) + contMagnitude rest (i + 1)

/-- The value denoted by a consumed compact-index byte sequence, as a
direct formula: low 6 bits of the first byte, plus the continuation
bytes' contributions, negated when the first byte's sign bit (second
highest) is set. -/
def compactValue : List Nat → Int
  | [] => 0
  | b0 :: rest => mkSigned (b0 / 64 % 2) (b0 % 64 + contMagnitude rest 0)

/-- Modelled from the spec: the codec "decodes/would encode" the compact
representation; no encoder exists in the sources, so this is the encoding
direction implied by the spec's byte layout.  The magnitude's low 6 bits
go in the first byte (with the sign in bit 6 and continuation in bit 7),
then successive 7-bit groups in continuation bytes, the 5th byte (when
needed) holding the remaining bits in full. -/
def encodeIndex (value : Int) : List Nat :=
  let s := if value < 0 then 64 else 0
  let m := value.natAbs
  if m < 64 then [s + m]
  else
    let b0 := 128 + s + m % 64
    let m1 := m / 64
    if m1 < 128 then [b0, m1]
    else
      let b1 := 128 + m1 % 128
      let m2 := m1 / 128
      if m2 < 128 then [b0, b1, m2]
      else
        let b2 := 128 + m2 % 128
        let m3 := m2 / 128
        if m3 < 128 then [b0, b1, b2, m3]
        else [b0, b1, b2, 128 + m3 % 128, m3 / 128]

/-- Decode of a freshly encoded value succeeds, returns the original
value, and consumes the whole encoding (the cursor ends at its length),
which must equal the byte count `k` the scheme specifies for that
magnitude. -/
def roundtripOK (v : Int) (k : Nat) : Bool :=
  let e := encodeIndex v
  decide (ReadUMXIndex ⟨e, 0⟩ = some (v, ⟨e, e.length⟩)) && (e.length == k)

/-- The decoded fixed 36-byte UMX package header, fields as in
`soundlib/UMXTools.h` (`UMXFileHeader`). -/
structure UMXFileHeader where
  magic : List Nat
  packageVersion : Nat
  licenseMode : Nat
  flags : Nat
  nameCount : Nat
  nameOffset : Nat
  exportCount : Nat
  exportOffset : Nat
  importCount : Nat
  importOffset : Nat
deriving DecidableEq, Repr

/-- Little-endian value of `n` bytes of `data` starting at `off`
(out-of-range bytes read as 0; the probe only parses when 36 bytes are
available). -/
def readLE (data : List Nat) (off : Nat) : Nat → Nat
  | 0 => 0
  | n + 1 => data.getD off 0 + 256 * readLE data (off + 1) n

/-- The fixed 4-byte magic signature `C1 83 2A 9E` from
`soundlib/UMXTools.h`. -/
def umxMagic : List Nat := [0xC1, 0x83, 0x2A, 0x9E]

/-- Decode the fixed header fields from the first 36 bytes, per the
binary layout table of the spec (all integers little-endian). -/
def parseHeader (data : List Nat) : UMXFileHeader :=
  { magic := data.take 4
    packageVersion := readLE data 4 2
    licenseMode := readLE data 6 2
    flags := readLE data 8 4
    nameCount := readLE data 12 4
    nameOffset := readLE data 16 4
    exportCount := readLE data 20 4
    exportOffset := readLE data 24 4
    importCount := readLE data 28 4
    importOffset := readLE data 32 4 }

/-- Modelled from the spec: `UMXFileHeader::IsValid` is declared in
`soundlib/UMXTools.h` without an implementation in the sources; per the
spec's prober algorithm it compares the magic field against the fixed
signature. -/
def UMXFileHeader.IsValid (hdr : UMXFileHeader) : Bool :=
  hdr.magic == umxMagic

/-- Modelled from the spec: `UMXFileHeader::GetMinimumAdditionalFileSize`
is declared in `soundlib/UMXTools.h` without an implementation in the
sources; per the spec it is the minimum file size beyond the 36 header
bytes required to hold at least the three declared tables' starting
bytes. -/
def UMXFileHeader.GetMinimumAdditionalFileSize (hdr : UMXFileHeader) : Nat :=
  max (max hdr.nameOffset hdr.exportOffset) hdr.importOffset - 36

/-- The tri-state probe verdict (`CSoundFile::ProbeResult`). -/
inductive ProbeResult where
  | Success
  | NeedMoreData
  | Failure
deriving DecidableEq, Repr

/-- Modelled from the spec: `ProbeFileHeader` is declared in
`soundlib/UMXTools.h` without an implementation in the sources.  Per the
spec's prober algorithm: with fewer than 36 bytes available the verdict
is NeedMoreData when the total size is unknown (more data may arrive)
and Failure when the whole file is already present and still too small;
otherwise the header is decoded, a bad magic is a Failure, and when the
total size is known a file too small to hold the declared tables'
starting bytes is a Failure; structural checks only — the required-type
name check is delegated to the name lookup, so `requiredType` does not
influence the verdict. -/
def ProbeFileHeader (data : List Nat) (pfilesize : Option Nat)
    (_requiredType : List Nat) : ProbeResult :=
  if data.length < 36 then
    match pfilesize with
    | none => ProbeResult.NeedMoreData
    | some s => if s ≤ data.length then ProbeResult.Failure else ProbeResult.NeedMoreData
  else
    let hdr := parseHeader data
    if ¬ hdr.IsValid then ProbeResult.Failure
    else
      match pfilesize with
      | some s =>
        if s < 36 + hdr.GetMinimumAdditionalFileSize then ProbeResult.Failure
        else ProbeResult.Success
      | none => ProbeResult.Success

/-- Read exactly `n` raw bytes from the cursor, failing when fewer are
available. -/
def readBytes : Nat → Cursor → Option (List Nat × Cursor)
  | 0, c => some ([], c)
  | n + 1, c =>
    match readByte c with
    | none => none
    | some (b, c1) => (readBytes n c1).map (fun p => (b :: p.1, p.2))

/-- Little-endian value of a byte list (used for the fixed-width 32-bit
name-length field of newer package versions). -/
def leValue : List Nat → Nat
  | [] => 0
  | b :: bs => b + 256 * leValue bs

/-- Modelled from the spec: the spec dispatches the name-entry layout on
"a version threshold" without fixing its numeric value; 64 is the
threshold of the package-format family this format belongs to. -/
def versionThreshold : Nat := 64

/-- Modelled from the spec: `ReadUMXNameTableEntry` is declared in
`soundlib/UMXTools.h` without an implementation in the sources.  Per the
spec's name-table reader: for versions below the threshold the name is
length-prefixed with a compact index (length counts the terminator),
for versions at or above it a fixed-width 32-bit little-endian length
stands in; that many raw bytes follow (the stored name drops the
trailing terminator byte); versions at or above the threshold then carry
a fixed 32-bit flags word.  A nonpositive length reads no string
bytes. -/
def ReadUMXNameTableEntry (packageVersion : Nat) (c : Cursor) :
    Option (List Nat × Cursor) :=
  match (if packageVersion < versionThreshold then ReadUMXIndex c
         else (readBytes 4 c).map (fun p => ((leValue p.1 : Int), p.2))) with
  | none => none
  | some (len, c1) =>
    match readBytes len.toNat c1 with
    | none => none
    | some (raw, c2) =>
      if versionThreshold ≤ packageVersion then
        match readBytes 4 c2 with
        | none => none
        | some (_, c3) => some (raw.dropLast, c3)
      else some (raw.dropLast, c2)

/-- Read `n` name-table entries sequentially; any entry failure makes the
whole read fail, discarding partial results. -/
def readNameEntries (packageVersion : Nat) : Nat → Cursor → Option (List (List Nat) × Cursor)
  | 0, c => some ([], c)
  | n + 1, c =>
    match ReadUMXNameTableEntry packageVersion c with
    | none => none
    | some (e, c1) => (readNameEntries packageVersion n c1).map (fun p => (e :: p.1, p.2))

/-- Modelled from the spec: `ReadUMXNameTable` is declared in
`soundlib/UMXTools.h` without an implementation in the sources.  Per
the spec: starting from the header's name-table offset, decode exactly
the header's declared name count of entries in order; truncation before
that count is a failed table read, not a short sequence. -/
def ReadUMXNameTable (data : List Nat) (fileHeader : UMXFileHeader) :
    Option (List (List Nat)) :=
  (readNameEntries fileHeader.packageVersion fileHeader.nameCount
    ⟨data, fileHeader.nameOffset⟩).map Prod.fst

/-- ASCII lower-casing of one byte (A..Z map to a..z, all else fixed). -/
def toLowerByte (b : Nat) : Nat :=
  if 65 ≤ b ∧ b ≤ 90 then b + 32 else b

/-- ASCII case-insensitive equality of two byte strings. -/
def umxNameMatch (a b : List Nat) : Bool :=
  a.map toLowerByte == b.map toLowerByte

/-- The byte string of an ASCII Lean string literal (for concrete
name-lookup instances). -/
def strBytes (s : String) : List Nat :=
  s.toList.map Char.toNat

/-- Scan up to `n` name-table entries in index order, stopping at the
first entry matching `target` case-insensitively; a failed entry read
stops the scan with `false`. -/
def findNameAux (packageVersion : Nat) (target : List Nat) : Nat → Cursor → Bool
  | 0, _ => false
  | n + 1, c =>
    match ReadUMXNameTableEntry packageVersion c with
    | none => false
    | some (e, c1) =>
      if umxNameMatch e target then true else findNameAux packageVersion target n c1

/-- Modelled from the spec: `FindUMXNameTableEntry` is declared in
`soundlib/UMXTools.h` without an implementation in the sources.  Per the
spec's name lookup: scan the name table in index order from the header's
name offset, compare each entry to the target ASCII
case-insensitively, stop at the first match, and return whether a match
was found. -/
def FindUMXNameTableEntry (data : List Nat) (fileHeader : UMXFileHeader)
    (name : List Nat) : Bool :=
  findNameAux fileHeader.packageVersion name fileHeader.nameCount
    ⟨data, fileHeader.nameOffset⟩

/-- An in-memory-bounded byte source (`MemoryFileReader`): the bytes are
held in a random-access in-memory array with an explicit size bound,
rather than behind the generic streaming-reader abstraction. -/
structure MemCursor where
  data : Array Nat
  pos : Nat
deriving DecidableEq, Repr

/-- Read one byte from an in-memory-bounded source, failing at or past
the size bound. -/
def readByteMem (c : MemCursor) : Option (Nat × MemCursor) :=
  if h : c.pos < c.data.size then some (c.data[c.pos], ⟨c.data, c.pos + 1⟩)
  else none

/-- The compact-index decoder over the in-memory-bounded source: the same
bit-assembly steps as `ReadUMXIndex`, reading through `readByteMem`. -/
def readIndexMem (c : MemCursor) : Option (Int × MemCursor) :=
  match readByteMem c with
  | none => none
  | some (b0, c1) =>
    let s := b0 / 64 % 2
    let m0 := b0 % 64
    if b0 / 128 % 2 = 0 then some (mkSigned s m0, c1)
    else match readByteMem c1 with
    | none => none
    | some (b1, c2) =>
      let m1 := m0 + b1 % 128 * 2 ^ 6
      if b1 / 128 % 2 = 0 then some (mkSigned s m1, c2)
      else match readByteMem c2 with
      | none => none
      | some (b2, c3) =>
        let m2 := m1 + b2 % 128 * 2 ^ 13
        if b2 / 128 % 2 = 0 then some (mkSigned s m2, c3)
        else match readByteMem c3 with
        | none => none
        | some (b3, c4) =>
          let m3 := m2 + b3 % 128 * 2 ^ 20
          if b3 / 128 % 2 = 0 then some (mkSigned s m3, c4)
          else match readByteMem c4 with
          | none => none
          | some (b4, c5) => some (mkSigned s (m3 + b4 * 2 ^ 27), c5)

/-- Read exactly `n` raw bytes from the in-memory-bounded source. -/
def readBytesMem : Nat → MemCursor → Option (List Nat × MemCursor)
  | 0, c => some ([], c)
  | n + 1, c =>
    match readByteMem c with
    | none => none
    | some (b, c1) => (readBytesMem n c1).map (fun p => (b :: p.1, p.2))

/-- One name-table entry read over the in-memory-bounded source, same
layout dispatch as `ReadUMXNameTableEntry`. -/
def readNameTableEntryMem (packageVersion : Nat) (c : MemCursor) :
    Option (List Nat × MemCursor) :=
  match (if packageVersion < versionThreshold then readIndexMem c
         else (readBytesMem 4 c).map (fun p => ((leValue p.1 : Int), p.2))) with
  | none => none
  | some (len, c1) =>
    match readBytesMem len.toNat c1 with
    | none => none
    | some (raw, c2) =>
      if versionThreshold ≤ packageVersion then
        match readBytesMem 4 c2 with
        | none => none
        | some (_, c3) => some (raw.dropLast, c3)
      else some (raw.dropLast, c2)

/-- The name scan over the in-memory-bounded source, same search as
`findNameAux`. -/
def findNameAuxMem (packageVersion : Nat) (target : List Nat) : Nat → MemCursor → Bool
  | 0, _ => false
  | n + 1, c =>
    match readNameTableEntryMem packageVersion c with
    | none => false
    | some (e, c1) =>
      if umxNameMatch e target then true else findNameAuxMem packageVersion target n c1

/-- Modelled from the spec: `FindUMXNameTableEntryMemory` is declared in
`soundlib/UMXTools.h` without an implementation in the sources.  Per the
spec it performs the identical search as `FindUMXNameTableEntry` but
reads from an in-memory-bounded source. -/
def FindUMXNameTableEntryMemory (data : Array Nat) (fileHeader : UMXFileHeader)
    (name : List Nat) : Bool :=
  findNameAuxMem fileHeader.packageVersion name fileHeader.nameCount
    ⟨data, fileHeader.nameOffset⟩

end UMX

namespace mpt

/-- `mpt::PathString` from `common/mptPathString.h`: a wrapper around the
platform-native character sequence of a path.  The platform predicate
`IsPathSeparator` and the constant `GetDefaultPathSeparator` are
declared in the header but defined elsewhere, so the operations below
are parameterized by them (`isSep`, `sep`). -/
structure PathString where
  path : List Char
deriving DecidableEq, Repr

/-- `PathString::HasTrailingSlash`: false on the empty path, otherwise
whether the last character is a path separator. -/
def PathString.HasTrailingSlash (isSep : Char → Bool) (p : PathString) : Bool :=
  match p.path.getLast? with
  | none => false
  | some c => isSep c

/-- `PathString::EnsureTrailingSlash`: when the path is non-empty and
lacks a trailing separator, append the default separator; otherwise
leave it unchanged.  (The C++ method mutates `*this` and returns a
reference; the embedding returns the updated value.) -/
def PathString.EnsureTrailingSlash (isSep : Char → Bool) (sep : Char)
    (p : PathString) : PathString :=
  if ¬ p.path.isEmpty ∧ ¬ (p.HasTrailingSlash isSep) then ⟨p.path ++ [sep]⟩ else p

/-- `PathString::WithoutTrailingSlash`: repeatedly drop the last
character while the path has a trailing separator, but return a
length-1 path (a lone root separator) unchanged.  (`const` method: the
receiver is not modified; the embedding is a pure function.) -/
def PathString.WithoutTrailingSlash (isSep : Char → Bool) (p : PathString) : PathString :=
  if h : PathString.HasTrailingSlash isSep p = true then
    if h1 : p.path.length = 1 then p
    else PathString.WithoutTrailingSlash isSep ⟨p.path.dropLast⟩
  else p
termination_by p.path.length
decreasing_by
  have hne : p.path ≠ [] := by
    intro he
    simp [PathString.HasTrailingSlash, he] at h
  have hpos : 0 < p.path.length := List.length_pos.mpr hne
  simp only [List.length_dropLast]
  omega

/-- `PathString::WithTrailingSlash`: `EnsureTrailingSlash` on a copy. -/
def PathString.WithTrailingSlash (isSep : Char → Bool) (sep : Char)
    (p : PathString) : PathString :=
  p.EnsureTrailingSlash isSep sep

/-- A concrete separator predicate (the POSIX instantiation of the
platform's `IsPathSeparator`), used for concrete instances. -/
def sepSlash (c : Char) : Bool :=
  c == '/'

end mpt

namespace UMX

theorem readByte_eq_some {c : Cursor} {b : Nat} {c2 : Cursor}
    (h : readByte c = some (b, c2)) :
    c.data[c.pos]? = some b ∧ c2 = ⟨c.data, c.pos + 1⟩ := by
  unfold readByte at h
  cases hg : c.data[c.pos]? with
  | none => rw [hg] at h; cases h
  | some b0 =>
    rw [hg] at h
    simp only [Option.some.injEq, Prod.mk.injEq] at h
    exact ⟨congrArg some h.1, h.2.symm⟩

theorem readByte_eq_none {c : Cursor} (h : readByte c = none) :
    c.data.length ≤ c.pos := by
  unfold readByte at h
  cases hg : c.data[c.pos]? with
  | none => exact List.getElem?_eq_none_iff.mp hg
  | some b0 => rw [hg] at h; cases h

theorem readIndex_some {c : Cursor} {v : Int} {c' : Cursor}
    (h : ReadUMXIndex c = some (v, c')) :
    c'.data = c.data ∧ ∃ bs : List Nat,
      1 ≤ bs.length ∧ bs.length ≤ 5 ∧ c'.pos = c.pos + bs.length ∧
      (∀ i, i < bs.length → c.data[c.pos + i]? = bs[i]?) ∧
      v = compactValue bs := by
  unfold ReadUMXIndex at h
  cases hb0 : readByte c with
  | none => rw [hb0] at h; cases h
  | some p0 =>
  obtain ⟨b0, c1⟩ := p0
  obtain ⟨hg0, hc1⟩ := readByte_eq_some hb0
  rw [hb0] at h
  subst hc1
  simp only [] at h
  by_cases h0 : b0 / 128 % 2 = 0
  · rw [if_pos h0] at h
    simp only [Option.some.injEq, Prod.mk.injEq] at h
    obtain ⟨hv, hc⟩ := h
    refine ⟨by rw [← hc], [b0], by simp, by simp, by rw [← hc]; simp, ?_, ?_⟩
    · intro i hi
      simp only [List.length_cons, List.length_nil] at hi
      interval_cases i
      · simpa using hg0
    · rw [← hv]
      simp only [compactValue, contMagnitude]
      norm_num
      try (congr 1; ring)
  · rw [if_neg h0] at h
    cases hb1 : readByte ⟨c.data, c.pos + 1⟩ with
    | none => rw [hb1] at h; cases h
    | some p1 =>
    obtain ⟨b1, c2⟩ := p1
    obtain ⟨hg1, hc2⟩ := readByte_eq_some hb1
    rw [hb1] at h
    subst hc2
    simp only [] at h
    by_cases h1 : b1 / 128 % 2 = 0
    · rw [if_pos h1] at h
      simp only [Option.some.injEq, Prod.mk.injEq] at h
      obtain ⟨hv, hc⟩ := h
      refine ⟨by rw [← hc], [b0, b1], by simp, by simp, by rw [← hc]; simp, ?_, ?_⟩
      · intro i hi
        simp only [List.length_cons, List.length_nil] at hi
        interval_cases i
        · simpa using hg0
        · simpa using hg1
      · rw [← hv]
        simp only [compactValue, contMagnitude]
        norm_num
        try (congr 1; ring)
    · rw [if_neg h1] at h
      cases hb2 : readByte ⟨c.data, c.pos + 1 + 1⟩ with
      | none => rw [hb2] at h; cases h
      | some p2 =>
      obtain ⟨b2, c3⟩ := p2
      obtain ⟨hg2, hc3⟩ := readByte_eq_some hb2
      rw [hb2] at h
      subst hc3
      simp only [] at h
      by_cases h2 : b2 / 128 % 2 = 0
      · rw [if_pos h2] at h
        simp only [Option.some.injEq, Prod.mk.injEq] at h
        obtain ⟨hv, hc⟩ := h
        refine ⟨by rw [← hc], [b0, b1, b2], by simp, by simp, by rw [← hc]; simp, ?_, ?_⟩
        · intro i hi
          simp only [List.length_cons, List.length_nil] at hi
          interval_cases i
          · simpa using hg0
          · simpa using hg1
          · simpa using hg2
        · rw [← hv]
          simp only [compactValue, contMagnitude]
          norm_num
          try (congr 1; ring)
      · rw [if_neg h2] at h
        cases hb3 : readByte ⟨c.data, c.pos + 1 + 1 + 1⟩ with
        | none => rw [hb3] at h; cases h
        | some p3 =>
        obtain ⟨b3, c4⟩ := p3
        obtain ⟨hg3, hc4⟩ := readByte_eq_some hb3
        rw [hb3] at h
        subst hc4
        simp only [] at h
        by_cases h3 : b3 / 128 % 2 = 0
        · rw [if_pos h3] at h
          simp only [Option.some.injEq, Prod.mk.injEq] at h
          obtain ⟨hv, hc⟩ := h
          refine ⟨by rw [← hc], [b0, b1, b2, b3], by simp, by simp, by rw [← hc]; simp, ?_, ?_⟩
          · intro i hi
            simp only [List.length_cons, List.length_nil] at hi
            interval_cases i
            · simpa using hg0
            · simpa using hg1
            · simpa using hg2
            · simpa using hg3
          · rw [← hv]
            simp only [compactValue, contMagnitude]
            norm_num
            try (congr 1; ring)
        · rw [if_neg h3] at h
          cases hb4 : readByte ⟨c.data, c.pos + 1 + 1 + 1 + 1⟩ with
          | none => rw [hb4] at h; cases h
          | some p4 =>
          obtain ⟨b4, c5⟩ := p4
          obtain ⟨hg4, hc5⟩ := readByte_eq_some hb4
          rw [hb4] at h
          subst hc5
          simp only [Option.some.injEq, Prod.mk.injEq] at h
          obtain ⟨hv, hc⟩ := h
          refine ⟨by rw [← hc], [b0, b1, b2, b3, b4], by simp, by simp,
            by rw [← hc]; simp, ?_, ?_⟩
          · intro i hi
            simp only [List.length_cons, List.length_nil] at hi
            interval_cases i
            · simpa using hg0
            · simpa using hg1
            · simpa using hg2
            · simpa using hg3
            · simpa using hg4
          · rw [← hv]
            simp only [compactValue, contMagnitude]
            norm_num
            try (congr 1; ring)

theorem readByte_some_of_lt {c : Cursor} (h : c.pos < c.data.length) :
    ∃ b, readByte c = some (b, ⟨c.data, c.pos + 1⟩) := by
  cases hg : c.data[c.pos]? with
  | none => exact absurd (List.getElem?_eq_none_iff.mp hg) (by omega)
  | some b => exact ⟨b, by unfold readByte; rw [hg]⟩

theorem readIndex_some_of_five {c : Cursor} (h : c.pos + 5 ≤ c.data.length) :
    ∃ r, ReadUMXIndex c = some r := by
  obtain ⟨b0, hb0⟩ := readByte_some_of_lt (c := c) (by omega)
  unfold ReadUMXIndex
  rw [hb0]
  simp only []
  by_cases h0 : b0 / 128 % 2 = 0
  · rw [if_pos h0]; exact ⟨_, rfl⟩
  · rw [if_neg h0]
    obtain ⟨b1, hb1⟩ := readByte_some_of_lt (c := ⟨c.data, c.pos + 1⟩) (by dsimp only; omega)
    rw [hb1]
    simp only []
    by_cases h1 : b1 / 128 % 2 = 0
    · rw [if_pos h1]; exact ⟨_, rfl⟩
    · rw [if_neg h1]
      obtain ⟨b2, hb2⟩ := readByte_some_of_lt (c := ⟨c.data, c.pos + 1 + 1⟩) (by dsimp only; omega)
      rw [hb2]
      simp only []
      by_cases h2 : b2 / 128 % 2 = 0
      · rw [if_pos h2]; exact ⟨_, rfl⟩
      · rw [if_neg h2]
        obtain ⟨b3, hb3⟩ := readByte_some_of_lt (c := ⟨c.data, c.pos + 1 + 1 + 1⟩)
          (by dsimp only; omega)
        rw [hb3]
        simp only []
        by_cases h3 : b3 / 128 % 2 = 0
        · rw [if_pos h3]; exact ⟨_, rfl⟩
        · rw [if_neg h3]
          obtain ⟨b4, hb4⟩ := readByte_some_of_lt (c := ⟨c.data, c.pos + 1 + 1 + 1 + 1⟩)
            (by dsimp only; omega)
          rw [hb4]
          exact ⟨_, rfl⟩

theorem readIndex_pos_le {c : Cursor} {v : Int} {c' : Cursor}
    (h : ReadUMXIndex c = some (v, c')) : c'.pos ≤ c.data.length := by
  obtain ⟨hdata, bs, h1, h5, hpos, hbytes, hval⟩ := readIndex_some h
  have hlast := hbytes (bs.length - 1) (by omega)
  have h2 : (bs[bs.length - 1]?).isSome = true := by
    rw [List.getElem?_eq_getElem (by omega)]
    rfl
  rw [← hlast] at h2
  have h3 : c.pos + (bs.length - 1) < c.data.length := by
    cases hg : c.data[c.pos + (bs.length - 1)]? with
    | none => rw [hg] at h2; cases h2
    | some b => exact (List.getElem?_eq_some_iff.mp hg).choose
  omega

end UMX

/-- C1: for every byte cursor on which a decode succeeds, `ReadUMXIndex`
consumes between 1 and 5 bytes (the cursor advances by exactly the
number of bytes consumed, over the same data) and the value returned is
the one the compact-index scheme assigns to those bytes: low 6 bits of
the first byte, 7 bits per continuation byte assembled
least-significant-first (8 bits for a 5th byte), negated when the first
byte's sign bit is set — with a set sign bit and zero magnitude
decoding to `0`, since `UMX.compactValue` produces the integer `-0 = 0`
there (the witness instance decodes the sign-set zero-magnitude byte
`0x40` to `0`). -/
theorem C1_compact_index_decode (c : UMX.Cursor) (v : Int) (c' : UMX.Cursor)
    (h : UMX.ReadUMXIndex c = some (v, c')) :
    c'.data = c.data ∧ ∃ bs : List Nat,
      1 ≤ bs.length ∧ bs.length ≤ 5 ∧ c'.pos = c.pos + bs.length ∧
      (∀ i, i < bs.length → c.data[c.pos + i]? = bs[i]?) ∧
      v = UMX.compactValue bs :=
  UMX.readIndex_some h

/-- Witness for C1 at the concrete input `[0x40]` (sign bit set, zero
magnitude): the decode succeeds, consumes one byte, and returns `0`. -/
theorem C1_compact_index_decode_witness :
    (UMX.Cursor.mk [64] 1).data = (UMX.Cursor.mk [64] 0).data ∧ ∃ bs : List Nat,
      1 ≤ bs.length ∧ bs.length ≤ 5 ∧
      (UMX.Cursor.mk [64] 1).pos = (UMX.Cursor.mk [64] 0).pos + bs.length ∧
      (∀ i, i < bs.length →
        (UMX.Cursor.mk [64] 0).data[(UMX.Cursor.mk [64] 0).pos + i]? = bs[i]?) ∧
      (0 : Int) = UMX.compactValue bs :=
  C1_compact_index_decode (UMX.Cursor.mk [64] 0) 0 (UMX.Cursor.mk [64] 1) (by decide)

/-- C4: the compact-index decoder is bounded and total: a successful
decode advances the cursor by at most 5 and never past the end of the
bounded data; whenever 5 bytes are available the decode succeeds (so a
5th byte's continuation bit can never pull in a 6th byte); and the
decode fails (returning `none`, with no advanced cursor handed to the
caller, and no crash — the function is total) only when fewer than 5
bytes remain. -/
theorem C4_compact_index_bounded :
    (∀ (c : UMX.Cursor) (v : Int) (c' : UMX.Cursor),
        UMX.ReadUMXIndex c = some (v, c') →
        c'.pos ≤ c.pos + 5 ∧ c'.pos ≤ c.data.length) ∧
    (∀ c : UMX.Cursor, c.pos + 5 ≤ c.data.length → ∃ r, UMX.ReadUMXIndex c = some r) ∧
    (∀ c : UMX.Cursor, UMX.ReadUMXIndex c = none → c.data.length < c.pos + 5) := by
  refine ⟨?_, ?_, ?_⟩
  · intro c v c' h
    obtain ⟨hdata, bs, h1, h5, hpos, hbytes, hval⟩ := UMX.readIndex_some h
    exact ⟨by omega, UMX.readIndex_pos_le h⟩
  · intro c h
    exact UMX.readIndex_some_of_five h
  · intro c h
    by_contra hlt
    obtain ⟨r, hr⟩ := UMX.readIndex_some_of_five (c := c) (by omega)
    rw [h] at hr
    cases hr

/-- Witness for C4: with 5 bytes available all claiming continuation, the
decode succeeds without touching a 6th byte; on a 1-byte source with a
continuation bit the decode fails. -/
theorem C4_compact_index_bounded_witness :
    (∃ r, UMX.ReadUMXIndex (UMX.Cursor.mk [128, 128, 128, 128, 128, 9] 0) = some r) ∧
    (UMX.Cursor.mk [128] 0).data.length < (UMX.Cursor.mk [128] 0).pos + 5 :=
  ⟨C4_compact_index_bounded.2.1 (UMX.Cursor.mk [128, 128, 128, 128, 128, 9] 0) (by decide),
   C4_compact_index_bounded.2.2 (UMX.Cursor.mk [128] 0) (by decide)⟩

/-- C7: for each representative boundary value (including the sign and
width boundaries 0, ±1, ±63, ±64, ±8191, ±8192 and the larger
multi-byte boundaries at 2^20 and 2^27 and the 5-byte extremes),
encoding with `UMX.encodeIndex` and decoding with `UMX.ReadUMXIndex`
returns the original value and consumes exactly the byte count the
scheme specifies for that magnitude (1, 2, 3, 4 or 5). -/
theorem C7_compact_codec_roundtrip :
    (([(0, 1), (1, 1), (-1, 1), (63, 1), (-63, 1), (64, 2), (-64, 2),
       (8191, 2), (-8191, 2), (8192, 3), (-8192, 3),
       (1048575, 3), (-1048575, 3), (1048576, 4), (-1048576, 4),
       (134217727, 4), (-134217727, 4), (134217728, 5), (-134217728, 5),
       (34359738367, 5), (-34359738367, 5)] : List (Int × Nat)).all
      (fun p => UMX.roundtripOK p.1 p.2)) = true := by
  decide


/-- C2: on a buffer of fewer than 36 bytes the probe returns NeedMoreData
when the total file size is unknown and Failure when the total size is
known and equals the buffer length; and the probe's verdict is always
exactly one of Success, NeedMoreData, Failure. -/
theorem C2_probe_small_buffer (data : List Nat) (pfilesize : Option Nat)
    (requiredType : List Nat) :
    (data.length < 36 →
      (pfilesize = none →
        UMX.ProbeFileHeader data pfilesize requiredType = UMX.ProbeResult.NeedMoreData) ∧
      (pfilesize = some data.length →
        UMX.ProbeFileHeader data pfilesize requiredType = UMX.ProbeResult.Failure)) ∧
    (UMX.ProbeFileHeader data pfilesize requiredType = UMX.ProbeResult.Success ∨
     UMX.ProbeFileHeader data pfilesize requiredType = UMX.ProbeResult.NeedMoreData ∨
     UMX.ProbeFileHeader data pfilesize requiredType = UMX.ProbeResult.Failure) := by
  constructor
  · intro hlt
    constructor
    · rintro rfl
      simp [UMX.ProbeFileHeader, hlt]
    · rintro rfl
      simp [UMX.ProbeFileHeader, hlt]
  · cases hres : UMX.ProbeFileHeader data pfilesize requiredType with
    | Success => exact Or.inl rfl
    | NeedMoreData => exact Or.inr (Or.inl rfl)
    | Failure => exact Or.inr (Or.inr rfl)

/-- Witness for C2: the empty buffer with known total size 0 probes as
Failure. -/
theorem C2_probe_small_buffer_witness :
    UMX.ProbeFileHeader [] (some ([] : List Nat).length) [] = UMX.ProbeResult.Failure :=
  ((C2_probe_small_buffer [] (some ([] : List Nat).length) []).1 (by decide)).2 rfl

/-- C3: on a 36-byte-or-larger buffer, a magic field differing from the
fixed signature makes the probe Fail regardless of every other header
field; and with the correct magic, a name-table offset beyond the known
total file size also makes it Fail. -/
theorem C3_probe_magic_and_bounds (data : List Nat) (pfilesize : Option Nat)
    (requiredType : List Nat) (h36 : 36 ≤ data.length) :
    ((UMX.parseHeader data).magic ≠ UMX.umxMagic →
      UMX.ProbeFileHeader data pfilesize requiredType = UMX.ProbeResult.Failure) ∧
    (∀ s, (UMX.parseHeader data).magic = UMX.umxMagic → pfilesize = some s →
      s < (UMX.parseHeader data).nameOffset →
      UMX.ProbeFileHeader data pfilesize requiredType = UMX.ProbeResult.Failure) := by
  have hnlt : ¬ data.length < 36 := by omega
  constructor
  · intro hmagic
    simp [UMX.ProbeFileHeader, hnlt, UMX.UMXFileHeader.IsValid, hmagic]
  · rintro s hmagic rfl hofs
    have hmin : s < 36 + (UMX.parseHeader data).GetMinimumAdditionalFileSize := by
      unfold UMX.UMXFileHeader.GetMinimumAdditionalFileSize
      have hle : (UMX.parseHeader data).nameOffset ≤
          max (max (UMX.parseHeader data).nameOffset (UMX.parseHeader data).exportOffset)
            (UMX.parseHeader data).importOffset :=
        le_trans (le_max_left _ _) (le_max_left _ _)
      omega
    simp [UMX.ProbeFileHeader, hnlt, UMX.UMXFileHeader.IsValid, hmagic, hmin]

/-- Witness for C3: a 36-byte all-zero buffer has the wrong magic and
probes as Failure. -/
theorem C3_probe_magic_and_bounds_witness :
    UMX.ProbeFileHeader (List.replicate 36 0) none [] = UMX.ProbeResult.Failure :=
  (C3_probe_magic_and_bounds (List.replicate 36 0) none [] (by decide)).1 (by decide)

namespace UMX

theorem readIndex_none_of_exhausted {c : Cursor} (h : c.data.length ≤ c.pos) :
    ReadUMXIndex c = none := by
  have hrb : readByte c = none := by
    unfold readByte
    rw [List.getElem?_eq_none_iff.mpr h]
  unfold ReadUMXIndex
  rw [hrb]

theorem readBytes_succ_none_of_exhausted {n : Nat} {c : Cursor}
    (h : c.data.length ≤ c.pos) : readBytes (n + 1) c = none := by
  have hrb : readByte c = none := by
    unfold readByte
    rw [List.getElem?_eq_none_iff.mpr h]
  unfold readBytes
  rw [hrb]

theorem nameEntry_none_of_exhausted {ver : Nat} {c : Cursor}
    (h : c.data.length ≤ c.pos) : ReadUMXNameTableEntry ver c = none := by
  unfold ReadUMXNameTableEntry
  by_cases hv : ver < versionThreshold
  · rw [if_pos hv, readIndex_none_of_exhausted h]
  · have h4 : readBytes 4 c = none := readBytes_succ_none_of_exhausted h
    rw [if_neg hv, h4]
    rfl

theorem readNameEntries_length {ver : Nat} : ∀ {n : Nat} {c : Cursor}
    {es : List (List Nat)} {c' : Cursor},
    readNameEntries ver n c = some (es, c') → es.length = n := by
  intro n
  induction n with
  | zero =>
    intro c es c' h
    simp only [readNameEntries, Option.some.injEq, Prod.mk.injEq] at h
    rw [← h.1]
    rfl
  | succ n ih =>
    intro c es c' h
    unfold readNameEntries at h
    cases hent : ReadUMXNameTableEntry ver c with
    | none => rw [hent] at h; cases h
    | some p =>
      obtain ⟨e, c1⟩ := p
      rw [hent] at h
      simp only [Option.map_eq_some'] at h
      obtain ⟨⟨es', c''⟩, hrec, heq⟩ := h
      simp only [Prod.mk.injEq] at heq
      rw [← heq.1]
      simp [ih hrec]

theorem readNameEntries_succ_none {ver : Nat} : ∀ {n : Nat} {c : Cursor}
    {es : List (List Nat)} {c' : Cursor},
    readNameEntries ver n c = some (es, c') → c'.data.length ≤ c'.pos →
    readNameEntries ver (n + 1) c = none := by
  intro n
  induction n with
  | zero =>
    intro c es c' h hex
    simp only [readNameEntries, Option.some.injEq, Prod.mk.injEq] at h
    rw [← h.2] at hex
    unfold readNameEntries
    rw [nameEntry_none_of_exhausted hex]
  | succ n ih =>
    intro c es c' h hex
    unfold readNameEntries at h
    cases hent : ReadUMXNameTableEntry ver c with
    | none => rw [hent] at h; cases h
    | some p =>
      obtain ⟨e, c1⟩ := p
      rw [hent] at h
      simp only [Option.map_eq_some'] at h
      obtain ⟨⟨es', c''⟩, hrec, heq⟩ := h
      simp only [Prod.mk.injEq] at heq
      have hnone := ih hrec (heq.2 ▸ hex)
      unfold readNameEntries
      rw [hent]
      simp only []
      rw [hnone]
      rfl

theorem findNameAux_eq_any {ver : Nat} {target : List Nat} : ∀ {n : Nat} {c : Cursor}
    {es : List (List Nat)} {c' : Cursor},
    readNameEntries ver n c = some (es, c') →
    findNameAux ver target n c = es.any (fun e => umxNameMatch e target) := by
  intro n
  induction n with
  | zero =>
    intro c es c' h
    simp only [readNameEntries, Option.some.injEq, Prod.mk.injEq] at h
    rw [← h.1]
    rfl
  | succ n ih =>
    intro c es c' h
    unfold readNameEntries at h
    cases hent : ReadUMXNameTableEntry ver c with
    | none => rw [hent] at h; cases h
    | some p =>
      obtain ⟨e, c1⟩ := p
      rw [hent] at h
      simp only [Option.map_eq_some'] at h
      obtain ⟨⟨es', c''⟩, hrec, heq⟩ := h
      simp only [Prod.mk.injEq] at heq
      rw [← heq.1]
      unfold findNameAux
      rw [hent]
      by_cases hm : umxNameMatch e target = true
      · simp [hm]
      · simp only [Bool.not_eq_true] at hm
        simp [hm, ih hrec]

end UMX

/-- C5: the name-table reader returns exactly the header's declared name
count of entries on success; and when the first `N - 1` of `N` declared
entries decode but the source is exhausted at that point, the whole
table read fails (`none`) rather than returning the short
`N - 1`-entry sequence. -/
theorem C5_name_table_count_or_truncated :
    (∀ (data : List Nat) (hdr : UMX.UMXFileHeader) (names : List (List Nat)),
        UMX.ReadUMXNameTable data hdr = some names → names.length = hdr.nameCount) ∧
    (∀ (data : List Nat) (hdr : UMX.UMXFileHeader) (n : Nat)
        (es : List (List Nat)) (c' : UMX.Cursor),
        hdr.nameCount = n + 1 →
        UMX.readNameEntries hdr.packageVersion n ⟨data, hdr.nameOffset⟩ = some (es, c') →
        c'.data.length ≤ c'.pos →
        UMX.ReadUMXNameTable data hdr = none) := by
  constructor
  · intro data hdr names h
    unfold UMX.ReadUMXNameTable at h
    cases hrec : UMX.readNameEntries hdr.packageVersion hdr.nameCount
        ⟨data, hdr.nameOffset⟩ with
    | none => rw [hrec] at h; cases h
    | some p =>
      rw [hrec] at h
      simp only [Option.map_some', Option.some.injEq] at h
      rw [← h]
      exact UMX.readNameEntries_length hrec
  · intro data hdr n es c' hcount h hex
    unfold UMX.ReadUMXNameTable
    rw [hcount, UMX.readNameEntries_succ_none h hex]
    rfl

/-- Witness for C5: a header declaring 1 name entry over an empty byte
source (0 entries decodable) yields a failed table read. -/
theorem C5_name_table_count_or_truncated_witness :
    UMX.ReadUMXNameTable []
      (UMX.UMXFileHeader.mk [] 0 0 0 1 0 0 0 0 0) = none :=
  C5_name_table_count_or_truncated.2 [] (UMX.UMXFileHeader.mk [] 0 0 0 1 0 0 0 0 0)
    0 [] ⟨[], 0⟩ rfl (by decide) (by decide)

/-- C6: the name lookup returns `true` exactly when some entry of the
(successfully decoded) name table matches the target
ASCII-case-insensitively, scanning in index order and stopping at the
first match; in particular the byte strings "Song01", "song01" and
"SONG01" all match one another. -/
theorem C6_name_lookup_case_insensitive (data : List Nat) (hdr : UMX.UMXFileHeader)
    (name : List Nat) (names : List (List Nat))
    (h : UMX.ReadUMXNameTable data hdr = some names) :
    (UMX.FindUMXNameTableEntry data hdr name = true ↔
      ∃ e ∈ names, UMX.umxNameMatch e name = true) ∧
    UMX.umxNameMatch (UMX.strBytes "Song01") (UMX.strBytes "song01") = true ∧
    UMX.umxNameMatch (UMX.strBytes "Song01") (UMX.strBytes "SONG01") = true := by
  refine ⟨?_, by decide, by decide⟩
  unfold UMX.ReadUMXNameTable at h
  cases hrec : UMX.readNameEntries hdr.packageVersion hdr.nameCount
      ⟨data, hdr.nameOffset⟩ with
  | none => rw [hrec] at h; cases h
  | some p =>
    rw [hrec] at h
    simp only [Option.map_some', Option.some.injEq] at h
    obtain ⟨es, c'⟩ := p
    rw [← h]
    unfold UMX.FindUMXNameTableEntry
    rw [UMX.findNameAux_eq_any hrec]
    exact List.any_eq_true

/-- Witness for C6: a table holding "Song01" (version-0 layout, compact
length prefix, terminator) is matched by a lookup for "song01". -/
theorem C6_name_lookup_case_insensitive_witness :
    UMX.FindUMXNameTableEntry [7, 83, 111, 110, 103, 48, 49, 0]
      (UMX.UMXFileHeader.mk [] 0 0 0 1 0 0 0 0 0) (UMX.strBytes "song01") = true :=
  (C6_name_lookup_case_insensitive [7, 83, 111, 110, 103, 48, 49, 0]
      (UMX.UMXFileHeader.mk [] 0 0 0 1 0 0 0 0 0) (UMX.strBytes "song01")
      [[83, 111, 110, 103, 48, 49]] (by decide)).1.mpr
    ⟨[83, 111, 110, 103, 48, 49], by decide, by decide⟩

namespace UMX

theorem readByteMem_toArray (l : List Nat) (p : Nat) :
    readByteMem ⟨l.toArray, p⟩ =
      (readByte ⟨l, p⟩).map (fun q => (q.1, ⟨q.2.data.toArray, q.2.pos⟩)) := by
  unfold readByteMem readByte
  by_cases h : p < l.length
  · rw [dif_pos (by simpa using h)]
    rw [List.getElem?_eq_getElem (by simpa using h)]
    simp
  · rw [dif_neg (by simpa using h)]
    rw [List.getElem?_eq_none_iff.mpr (by dsimp only; omega)]
    rfl

theorem readIndexMem_toArray (l : List Nat) (p : Nat) :
    readIndexMem ⟨l.toArray, p⟩ =
      (ReadUMXIndex ⟨l, p⟩).map (fun q => (q.1, ⟨q.2.data.toArray, q.2.pos⟩)) := by
  unfold readIndexMem ReadUMXIndex
  rw [readByteMem_toArray]
  cases hb0 : readByte ⟨l, p⟩ with
  | none => rfl
  | some p0 =>
    obtain ⟨b0, c1⟩ := p0
    obtain ⟨hg0, hc1⟩ := readByte_eq_some hb0
    subst hc1
    simp only [Option.map_some']
    try dsimp only
    by_cases h0 : b0 / 128 % 2 = 0
    · rw [if_pos h0, if_pos h0]; rfl
    · rw [if_neg h0, if_neg h0]
      rw [readByteMem_toArray]
      cases hb1 : readByte ⟨l, p + 1⟩ with
      | none => rfl
      | some p1 =>
        obtain ⟨b1, c2⟩ := p1
        obtain ⟨hg1, hc2⟩ := readByte_eq_some hb1
        subst hc2
        simp only [Option.map_some']
        try dsimp only
        by_cases h1 : b1 / 128 % 2 = 0
        · rw [if_pos h1, if_pos h1]; rfl
        · rw [if_neg h1, if_neg h1]
          rw [readByteMem_toArray]
          cases hb2 : readByte ⟨l, p + 1 + 1⟩ with
          | none => rfl
          | some p2 =>
            obtain ⟨b2, c3⟩ := p2
            obtain ⟨hg2, hc3⟩ := readByte_eq_some hb2
            subst hc3
            simp only [Option.map_some']
            try dsimp only
            by_cases h2 : b2 / 128 % 2 = 0
            · rw [if_pos h2, if_pos h2]; rfl
            · rw [if_neg h2, if_neg h2]
              rw [readByteMem_toArray]
              cases hb3 : readByte ⟨l, p + 1 + 1 + 1⟩ with
              | none => rfl
              | some p3 =>
                obtain ⟨b3, c4⟩ := p3
                obtain ⟨hg3, hc4⟩ := readByte_eq_some hb3
                subst hc4
                simp only [Option.map_some']
                try dsimp only
                by_cases h3 : b3 / 128 % 2 = 0
                · rw [if_pos h3, if_pos h3]; rfl
                · rw [if_neg h3, if_neg h3]
                  rw [readByteMem_toArray]
                  cases hb4 : readByte ⟨l, p + 1 + 1 + 1 + 1⟩ with
                  | none => rfl
                  | some p4 =>
                    obtain ⟨b4, c5⟩ := p4
                    obtain ⟨hg4, hc5⟩ := readByte_eq_some hb4
                    subst hc5
                    simp only [Option.map_some']
                    try dsimp only
                    try rfl

theorem readBytesMem_toArray (n : Nat) : ∀ (l : List Nat) (p : Nat),
    readBytesMem n ⟨l.toArray, p⟩ =
      (readBytes n ⟨l, p⟩).map (fun q => (q.1, ⟨q.2.data.toArray, q.2.pos⟩)) := by
  induction n with
  | zero => intro l p; rfl
  | succ n ih =>
    intro l p
    unfold readBytesMem readBytes
    rw [readByteMem_toArray]
    cases hb : readByte ⟨l, p⟩ with
    | none => rfl
    | some q =>
      obtain ⟨b, c1⟩ := q
      obtain ⟨hg, hc1⟩ := readByte_eq_some hb
      subst hc1
      simp only [Option.map_some']
      try dsimp only
      rw [ih l (p + 1)]
      cases readBytes n ⟨l, p + 1⟩ with
      | none => rfl
      | some q2 => rfl

theorem readBytes_data : ∀ {n : Nat} {c : Cursor} {bs : List Nat} {c2 : Cursor},
    readBytes n c = some (bs, c2) → c2.data = c.data := by
  intro n
  induction n with
  | zero =>
    intro c bs c2 h
    simp only [readBytes, Option.some.injEq, Prod.mk.injEq] at h
    rw [← h.2]
  | succ n ih =>
    intro c bs c2 h
    unfold readBytes at h
    cases hb : readByte c with
    | none => rw [hb] at h; cases h
    | some q =>
      obtain ⟨b, c1⟩ := q
      obtain ⟨hg, hc1⟩ := readByte_eq_some hb
      subst hc1
      rw [hb] at h
      simp only [Option.map_eq_some'] at h
      obtain ⟨⟨bs', c3⟩, hrec, heq⟩ := h
      simp only [Prod.mk.injEq] at heq
      rw [← heq.2]
      exact ih (c := ⟨c.data, c.pos + 1⟩) hrec

theorem readNameTableEntryMem_toArray (ver : Nat) (l : List Nat) (p : Nat) :
    readNameTableEntryMem ver ⟨l.toArray, p⟩ =
      (ReadUMXNameTableEntry ver ⟨l, p⟩).map
        (fun q => (q.1, ⟨q.2.data.toArray, q.2.pos⟩)) := by
  unfold readNameTableEntryMem ReadUMXNameTableEntry
  by_cases hv : ver < versionThreshold
  · rw [if_pos hv, if_pos hv, readIndexMem_toArray]
    cases hi : ReadUMXIndex ⟨l, p⟩ with
    | none => rfl
    | some q =>
      obtain ⟨len, c1⟩ := q
      obtain ⟨d1, p1⟩ := c1
      have hdata : d1 = l := (readIndex_some hi).1
      subst hdata
      simp only [Option.map_some']
      try dsimp only
      rw [readBytesMem_toArray]
      cases hr : readBytes len.toNat ⟨d1, p1⟩ with
      | none => rfl
      | some q2 =>
        obtain ⟨raw, c2⟩ := q2
        obtain ⟨d2, p2⟩ := c2
        have hdata2 : d2 = d1 := readBytes_data hr
        subst hdata2
        simp only [Option.map_some']
        try dsimp only
        by_cases hvt : versionThreshold ≤ ver
        · rw [if_pos hvt, if_pos hvt, readBytesMem_toArray]
          cases hr4 : readBytes 4 ⟨d2, p2⟩ with
          | none => rfl
          | some q4 => rfl
        · rw [if_neg hvt, if_neg hvt]
          rfl
  · rw [if_neg hv, if_neg hv, readBytesMem_toArray]
    cases hr : readBytes 4 ⟨l, p⟩ with
    | none => rfl
    | some q =>
      obtain ⟨four, c1⟩ := q
      obtain ⟨d1, p1⟩ := c1
      have hdata : d1 = l := readBytes_data hr
      subst hdata
      simp only [Option.map_some']
      try dsimp only
      rw [readBytesMem_toArray]
      cases hr2 : readBytes (leValue four : Int).toNat ⟨d1, p1⟩ with
      | none => rfl
      | some q2 =>
        obtain ⟨raw, c2⟩ := q2
        obtain ⟨d2, p2⟩ := c2
        have hdata2 : d2 = d1 := readBytes_data hr2
        subst hdata2
        simp only [Option.map_some']
        try dsimp only
        by_cases hvt : versionThreshold ≤ ver
        · rw [if_pos hvt, if_pos hvt, readBytesMem_toArray]
          cases hr4 : readBytes 4 ⟨d2, p2⟩ with
          | none => rfl
          | some q4 => rfl
        · rw [if_neg hvt, if_neg hvt]
          rfl

theorem nameEntry_data {ver : Nat} {c : Cursor} {e : List Nat} {c2 : Cursor}
    (h : ReadUMXNameTableEntry ver c = some (e, c2)) : c2.data = c.data := by
  unfold ReadUMXNameTableEntry at h
  cases hlen : (if ver < versionThreshold then ReadUMXIndex c
      else (readBytes 4 c).map (fun p => ((leValue p.1 : Int), p.2))) with
  | none => rw [hlen] at h; cases h
  | some q =>
    obtain ⟨len, c1⟩ := q
    have hd1 : c1.data = c.data := by
      by_cases hv : ver < versionThreshold
      · rw [if_pos hv] at hlen
        exact (readIndex_some hlen).1
      · rw [if_neg hv] at hlen
        simp only [Option.map_eq_some'] at hlen
        obtain ⟨⟨bs, c1'⟩, hrb, heq⟩ := hlen
        simp only [Prod.mk.injEq] at heq
        rw [← heq.2]
        exact readBytes_data hrb
    rw [hlen] at h
    simp only [] at h
    cases hraw : readBytes len.toNat c1 with
    | none => rw [hraw] at h; cases h
    | some q2 =>
      obtain ⟨raw, c5⟩ := q2
      have hd2 : c5.data = c1.data := readBytes_data hraw
      rw [hraw] at h
      simp only [] at h
      by_cases hvt : versionThreshold ≤ ver
      · rw [if_pos hvt] at h
        cases hfl : readBytes 4 c5 with
        | none => rw [hfl] at h; cases h
        | some q3 =>
          obtain ⟨fl, c3⟩ := q3
          have hd3 : c3.data = c5.data := readBytes_data hfl
          rw [hfl] at h
          simp only [Option.some.injEq, Prod.mk.injEq] at h
          rw [← h.2]
          rw [hd3, hd2, hd1]
      · rw [if_neg hvt] at h
        simp only [Option.some.injEq, Prod.mk.injEq] at h
        rw [← h.2]
        rw [hd2, hd1]

theorem findNameAuxMem_toArray (ver : Nat) (target : List Nat) :
    ∀ (n : Nat) (l : List Nat) (p : Nat),
    findNameAuxMem ver target n ⟨l.toArray, p⟩ = findNameAux ver target n ⟨l, p⟩ := by
  intro n
  induction n with
  | zero => intro l p; rfl
  | succ n ih =>
    intro l p
    unfold findNameAuxMem findNameAux
    rw [readNameTableEntryMem_toArray]
    cases he : ReadUMXNameTableEntry ver ⟨l, p⟩ with
    | none => rfl
    | some q =>
      obtain ⟨e, c1⟩ := q
      obtain ⟨d1, p1⟩ := c1
      have hdata : d1 = l := nameEntry_data he
      subst hdata
      simp only [Option.map_some']
      try dsimp only
      by_cases hm : umxNameMatch e target = true
      · rw [if_pos hm, if_pos hm]
      · rw [if_neg hm, if_neg hm]
        exact ih d1 p1

end UMX

/-- C8: the two name-lookup variants — the generic streaming-source
`FindUMXNameTableEntry` and the in-memory-bounded
`FindUMXNameTableEntryMemory` — return the same boolean on the same
underlying bytes, for every byte source, header and target name. -/
theorem C8_find_variants_agree (data : List Nat) (fileHeader : UMX.UMXFileHeader)
    (name : List Nat) :
    UMX.FindUMXNameTableEntryMemory data.toArray fileHeader name =
      UMX.FindUMXNameTableEntry data fileHeader name := by
  unfold UMX.FindUMXNameTableEntryMemory UMX.FindUMXNameTableEntry
  exact UMX.findNameAuxMem_toArray _ _ _ _ _


namespace mpt

theorem withoutTrailingSlash_no_slash (isSep : Char → Bool) :
    ∀ (n : Nat) (p : PathString), p.path.length ≤ n →
    (PathString.WithoutTrailingSlash isSep p).HasTrailingSlash isSep = true →
    (PathString.WithoutTrailingSlash isSep p).path.length = 1 := by
  intro n
  induction n with
  | zero =>
    intro p hlen hts
    have hem : p.path = [] := List.eq_nil_of_length_eq_zero (by omega)
    have hfalse : p.HasTrailingSlash isSep = false := by
      unfold PathString.HasTrailingSlash
      rw [hem]
      rfl
    unfold PathString.WithoutTrailingSlash at hts
    rw [dif_neg (by rw [hfalse]; simp)] at hts
    rw [hfalse] at hts
    cases hts
  | succ n ih =>
    intro p hlen hts
    by_cases h : p.HasTrailingSlash isSep = true
    · by_cases h1 : p.path.length = 1
      · unfold PathString.WithoutTrailingSlash at hts ⊢
        rw [dif_pos h, dif_pos h1] at hts ⊢
        exact h1
      · have hstep : PathString.WithoutTrailingSlash isSep p =
            PathString.WithoutTrailingSlash isSep ⟨p.path.dropLast⟩ := by
          conv_lhs => unfold PathString.WithoutTrailingSlash
          rw [dif_pos h, dif_neg h1]
        rw [hstep] at hts ⊢
        exact ih ⟨p.path.dropLast⟩ (by simp only [List.length_dropLast]; omega) hts
    · unfold PathString.WithoutTrailingSlash at hts ⊢
      rw [dif_neg h] at hts ⊢
      exact absurd hts h

end mpt

/-- C9: `WithoutTrailingSlash` returns a path without a trailing path
separator unless the result's length is exactly 1; a length-1 path (in
particular a lone root separator) is returned unchanged.  The receiver
is a `const` method and is never modified: the embedding is a pure
function of `p`. -/
theorem C9_without_trailing_slash (isSep : Char → Bool) (p : mpt.PathString) :
    ((mpt.PathString.WithoutTrailingSlash isSep p).HasTrailingSlash isSep = true →
      (mpt.PathString.WithoutTrailingSlash isSep p).path.length = 1) ∧
    (p.path.length = 1 → mpt.PathString.WithoutTrailingSlash isSep p = p) := by
  constructor
  · exact mpt.withoutTrailingSlash_no_slash isSep p.path.length p le_rfl
  · intro h1
    unfold mpt.PathString.WithoutTrailingSlash
    by_cases h : mpt.PathString.HasTrailingSlash isSep p = true
    · rw [dif_pos h, dif_pos h1]
    · rw [dif_neg h]

/-- Witness for C9 at the lone root separator "/": it is returned
unchanged. -/
theorem C9_without_trailing_slash_witness :
    mpt.PathString.WithoutTrailingSlash mpt.sepSlash ⟨['/']⟩ = ⟨['/']⟩ :=
  (C9_without_trailing_slash mpt.sepSlash ⟨['/']⟩).2 (by decide)

/-- C10: provided the platform's default separator satisfies its own
separator predicate, `EnsureTrailingSlash` leaves the empty path empty,
makes `HasTrailingSlash` true exactly for originally non-empty paths,
and is idempotent. -/
theorem C10_ensure_trailing_slash (isSep : Char → Bool) (sep : Char)
    (p : mpt.PathString) (hsep : isSep sep = true) :
    ((mpt.PathString.EnsureTrailingSlash isSep sep p).path = [] ↔ p.path = []) ∧
    ((mpt.PathString.EnsureTrailingSlash isSep sep p).HasTrailingSlash isSep = true ↔
      p.path ≠ []) ∧
    mpt.PathString.EnsureTrailingSlash isSep sep
        (mpt.PathString.EnsureTrailingSlash isSep sep p) =
      mpt.PathString.EnsureTrailingSlash isSep sep p := by
  unfold mpt.PathString.EnsureTrailingSlash
  by_cases he : p.path.isEmpty = true
  · have hnil : p.path = [] := by simpa [List.isEmpty_iff] using he
    rw [if_neg (by simp [he])]
    rw [if_neg (by simp [he])]
    refine ⟨Iff.rfl, ?_, rfl⟩
    unfold mpt.PathString.HasTrailingSlash
    rw [hnil]
    simp
  · have hne : p.path ≠ [] := by simpa [List.isEmpty_iff] using he
    by_cases hts : p.HasTrailingSlash isSep = true
    · rw [if_neg (by simp [hts])]
      rw [if_neg (by simp [hts])]
      exact ⟨by simp [hne], by simp [hts, hne], rfl⟩
    · rw [if_pos ⟨by simpa using he, by simpa using hts⟩]
      have hts2 : mpt.PathString.HasTrailingSlash isSep ⟨p.path ++ [sep]⟩ = true := by
        unfold mpt.PathString.HasTrailingSlash
        rw [List.getLast?_concat]
        exact hsep
      constructor
      · simp [hne]
      constructor
      · simp [hts2, hne]
      · rw [if_neg (by simp [hts2])]

/-- Witness for C10 at the one-character path "a" with the POSIX
separator: `EnsureTrailingSlash` is idempotent there. -/
theorem C10_ensure_trailing_slash_witness :
    mpt.PathString.EnsureTrailingSlash mpt.sepSlash '/'
        (mpt.PathString.EnsureTrailingSlash mpt.sepSlash '/' ⟨['a']⟩) =
      mpt.PathString.EnsureTrailingSlash mpt.sepSlash '/' ⟨['a']⟩ :=
  (C10_ensure_trailing_slash mpt.sepSlash '/' ⟨['a']⟩ (by decide)).2.2
